import Mathlib

/-
Verification of the density-based outlier detector of the `etna` time-series
library (`etna/analysis/outliers/density_outliers.py`).

The detector works on a 1-D numeric series and only ever inspects the values
through the comparison `distance_func(x, item) < distance_threshold`, so the
embedding is generic in the value type `α` and in the linearly ordered type
`β` of distances/thresholds.  Statements about "series of real numbers" are
instantiated at `ℚ` (the executable stand-in for exact real arithmetic);
fully concrete scenarios with integer data are instantiated at `ℤ`, where
every arithmetic operation evaluates inside the kernel.

Python-specific behaviour that the embedding reproduces:
  - `max(0, idx - window_size)` on machine integers is truncated subtraction
    on `ℕ`;
  - `max(0, min(idx, n - window_size))` is computed in `ℤ` and clamped with
    `Int.toNat`, since `n - window_size` can be negative;
  - the slice `series[start : start + window_size + delta - 1]` clamps its
    stop index to the length of the list (`List.take` does the same);
  - `num_close[-delta + d]` uses a negative index, which Python resolves to
    `len(num_close) + (-delta + d)`; for the indices reached by the loop this
    offset is always in range, so the embedding uses `getD` with a default
    that is never consulted on those indices.
-/

/-- Distance used by default in `get_anomalies_density`: absolute value of the
difference (`absolute_difference_distance` in the source). -/
def absolute_difference_distance {α : Type} [LinearOrderedAddCommGroup α]
    (x y : α) : α := |x - y|

/-- Running prefix sums, following `np.cumsum`: element `k` of the result is
the sum of the first `k + 1` elements of the input. -/
def cumsum : List ℕ → List ℕ
  | [] => []
  | a :: l => a :: (cumsum l).map (a + ·)

/-- Embedding of `start_idxs[idx] = np.maximum(0, idxs - window_size)`:
truncated subtraction on `ℕ` is exactly `max(0, idx - window_size)`. -/
def startIdx (idx w : ℕ) : ℕ := idx - w

/-- Embedding of `end_idxs[idx] = np.maximum(0, np.minimum(idxs, len(series)
- window_size)) + 1`; `len(series) - window_size` can be negative, so the
inner minimum is taken in `ℤ` and clamped by `Int.toNat`. -/
def endIdx (n idx w : ℕ) : ℕ := (min (idx : ℤ) ((n : ℤ) - (w : ℤ))).toNat + 1

/-- Embedding of `deltas[idx] = end_idxs[idx] - start_idxs[idx]`.  The loop
`for d in range(delta)` treats a non-positive delta as an empty range, which
matches truncated subtraction on `ℕ`. -/
def deltaIdx (n idx w : ℕ) : ℕ := endIdx n idx w - startIdx idx w

/-- Embedding of the slice
`series[start_idx : start_idx + window_size + delta - 1]` taken in the body of
the per-position loop; `List.take` clamps the stop index exactly as a Python
slice does. -/
def windowSlice {α : Type} (series : List α) (w idx : ℕ) : List α :=
  (series.drop (startIdx idx w)).take (w + deltaIdx series.length idx w - 1)

/-- Embedding of `closeness = is_close(series[start_idx : ...], item)`, the
elementwise comparison `distance_func(x, item) < distance_threshold` over the
window slice. -/
def closenessList {α β : Type} [LinearOrder β] (series : List α) (w : ℕ)
    (t : β) (dist : α → α → β) (idx : ℕ) (item : α) : List Bool :=
  (windowSlice series w idx).map (fun x => decide (dist x item < t))

/-- Embedding of `num_close = np.cumsum(closeness)` (booleans are summed as
0/1 integers by numpy). -/
def numCloseList {α β : Type} [LinearOrder β] (series : List α) (w : ℕ)
    (t : β) (dist : α → α → β) (idx : ℕ) (item : α) : List ℕ :=
  cumsum ((closenessList series w t dist idx item).map (fun b => cond b 1 0))

/-- Embedding of the estimated neighbor count for window placement `d`:
`est_neighbors = num_close[-delta + d] - num_close[d]`, followed by
`est_neighbors += closeness[d] - 1` when `start_idx + d != idx`.  The Python
negative index `-delta + d` resolves to `len(num_close) + d - delta`.  The
result lives in `ℤ` because the correction can drive it to `-1`. -/
def estNeighbors (closeness : List Bool) (numClose : List ℕ)
    (s dlt d idx : ℕ) : ℤ :=
  (numClose.getD (numClose.length + d - dlt) 0 : ℤ) - (numClose.getD d 0 : ℤ) +
    (if s + d ≠ idx then (cond (closeness.getD d false) 1 0 : ℤ) - 1 else 0)

/-- Embedding of the body of the per-position loop: position `idx` (holding
value `item`) is an outlier when no window placement `d < delta` reaches
`est_neighbors >= n_neighbors`. -/
def outlierAt {α β : Type} [LinearOrder β] (series : List α) (w : ℕ) (t : β)
    (nn : ℕ) (dist : α → α → β) (idx : ℕ) (item : α) : Bool :=
  (List.range (deltaIdx series.length idx w)).all fun d =>
    decide (estNeighbors (closenessList series w t dist idx item)
      (numCloseList series w t dist idx item)
      (startIdx idx w) (deltaIdx series.length idx w) d idx < (nn : ℤ))

/-- Embedding of `get_segment_density_outliers_indices`: the loop
`for idx, item, start_idx, delta in zip(idxs, series, start_idxs, deltas)`
appends `idx` to the result whenever the position is judged an outlier, so the
result is the ascending list of outlier positions. -/
def get_segment_density_outliers_indices {α β : Type} [LinearOrder β]
    (series : List α) (w : ℕ) (t : β) (nn : ℕ) (dist : α → α → β) : List ℕ :=
  ((List.range series.length).zip series).filterMap fun p =>
    if outlierAt series w t nn dist p.1 p.2 then some p.1 else none

/-- Closeness of series position `k` to series position `idx` (both read with
`getD`, whose default is never consulted for in-range positions): the distance
from `series[k]` to `series[idx]` is strictly below the threshold.  This is
the per-position form of the comparison the detector performs. -/
def closeB {α β : Type} [Inhabited α] [LinearOrder β] (series : List α)
    (t : β) (dist : α → α → β) (idx k : ℕ) : Bool :=
  decide (dist (series.getD k default) (series.getD idx default) < t)

/-- Number of positions in the half-open span `[lo, lo + len)` that are close
to position `idx`. -/
def cntC {α β : Type} [Inhabited α] [LinearOrder β] (series : List α) (t : β)
    (dist : α → α → β) (idx lo len : ℕ) : ℕ :=
  (List.range' lo len).countP (closeB series t dist idx)

/-- Number of positions other than `idx` in the half-open span
`[lo, lo + len)` that are close to position `idx`. -/
def cntO {α β : Type} [Inhabited α] [LinearOrder β] (series : List α) (t : β)
    (dist : α → α → β) (idx lo len : ℕ) : ℕ :=
  (List.range' lo len).countP fun k =>
    decide (k ≠ idx) && closeB series t dist idx k

/-- Written from the specification text: position `idx` is an outlier iff,
across every in-bounds window placement of width `window_size` that contains
`idx`, the count of other positions in that placement whose distance to
`series[idx]` is strictly below `distance_threshold` never reaches
`n_neighbors`.  A placement is identified by its start `sp`; it is in bounds
when `sp + window_size ≤ n` and contains `idx` when `sp ≤ idx < sp +
window_size`. -/
def specIsOutlier {α β : Type} [Inhabited α] [LinearOrder β]
    (series : List α) (w : ℕ) (t : β) (nn : ℕ) (dist : α → α → β)
    (idx : ℕ) : Prop :=
  ∀ sp : ℕ, sp ≤ idx → sp + w ≤ series.length → idx < sp + w →
    (List.range' sp w).countP
      (fun k =>
        decide (k ≠ idx ∧ dist (series.getD k default) (series.getD idx default) < t))
      < nn

instance {α β : Type} [Inhabited α] [LinearOrder β] (series : List α) (w : ℕ)
    (t : β) (nn : ℕ) (dist : α → α → β) (idx : ℕ) :
    Decidable (specIsOutlier series w t nn dist idx) := by
  unfold specIsOutlier
  exact Nat.decidableBallLE idx _

/-- Embedding of the per-segment preprocessing `ts[:, seg, in_column].dropna()`
on rows of (timestamp, optional value): rows with a missing value are removed,
timestamps staying aligned with the surviving values. -/
def dropna {τ : Type} (rows : List (τ × Option ℚ)) : List (τ × ℚ) :=
  rows.filterMap fun r => r.2.map fun v => (r.1, v)

/-- Embedding of `get_anomalies_density`.  The dataset container `TSDataset`
is external to this subsystem and is modelled by its interface: a list of
(segment name, rows) pairs, each row a (timestamp, optional value) pair.
Likewise `np.std` is an external numeric routine, modelled by the parameter
`stdFn`; the source guards the segment with the truthiness test
`if series_std:`, which for a float means `series_std != 0`.  A segment is
emitted only when the detector (invoked with threshold
`distance_coef * series_std`) returns a nonempty index list, in which case
the indices are mapped back to the post-drop timestamps. -/
def segmentOutliers {τ : Type} [Inhabited τ] (w : ℕ) (coef : ℚ) (nn : ℕ)
    (dist : ℚ → ℚ → ℚ) (stdFn : List ℚ → ℚ)
    (seg : String × List (τ × Option ℚ)) : Option (String × List τ) :=
  let rows := dropna seg.2
  let series := rows.map Prod.snd
  let timestamps := rows.map Prod.fst
  let sd := stdFn series
  if sd ≠ 0 then
    let outliers := get_segment_density_outliers_indices series w (coef * sd) nn dist
    if outliers ≠ [] then
      some (seg.1, outliers.map fun i => timestamps.getD i default)
    else none
  else none

/-- Embedding of the per-dataset loop of `get_anomalies_density`: every
segment is processed independently and contributes an entry exactly when
`segmentOutliers` produces one. -/
def get_anomalies_density {τ : Type} [Inhabited τ]
    (ts : List (String × List (τ × Option ℚ))) (w : ℕ) (coef : ℚ) (nn : ℕ)
    (dist : ℚ → ℚ → ℚ) (stdFn : List ℚ → ℚ) : List (String × List τ) :=
  ts.filterMap (segmentOutliers w coef nn dist stdFn)

/-- Post-drop value sequence of a raw segment. -/
def segValues {τ : Type} (rows : List (τ × Option ℚ)) : List ℚ :=
  (dropna rows).map Prod.snd

/-! Basic facts about `cumsum` and counting over `List.range'`. -/

theorem cumsum_length (l : List ℕ) : (cumsum l).length = l.length := by
  induction l with
  | nil => rfl
  | cons a l ih => simp [cumsum, ih]

theorem cumsum_getD (l : List ℕ) (k : ℕ) (hk : k < l.length) :
    (cumsum l).getD k 0 = (l.take (k + 1)).sum := by
  induction l generalizing k with
  | nil => simp at hk
  | cons a l ih =>
    cases k with
    | zero => simp [cumsum]
    | succ k =>
      have hk' : k < l.length := by simpa using hk
      have hmap : k < ((cumsum l).map (a + ·)).length := by
        simpa [cumsum_length] using hk'
      calc (cumsum (a :: l)).getD (k + 1) 0
          = ((cumsum l).map (a + ·)).getD k 0 := by simp [cumsum]
        _ = ((cumsum l).map (a + ·)).getD k (a + 0) := by
            rw [List.getD_eq_getElem _ _ hmap, List.getD_eq_getElem _ _ hmap]
        _ = a + (cumsum l).getD k 0 := List.getD_map _ _ _
        _ = a + (l.take (k + 1)).sum := by rw [ih k hk']
        _ = ((a :: l).take (k + 2)).sum := by simp [List.take_succ_cons]

theorem sum_map_cond (l : List Bool) :
    (l.map fun b => cond b 1 0).sum = l.countP id := by
  induction l with
  | nil => rfl
  | cons b l ih =>
    cases b
    · simp [List.countP_cons, ih]
    · simp [List.countP_cons, ih, Nat.add_comm]

theorem countP_range'_split (p : ℕ → Bool) (lo m k : ℕ) :
    (List.range' lo (m + k)).countP p =
      (List.range' lo m).countP p + (List.range' (lo + m) k).countP p := by
  have h := List.range'_append lo m k 1
  rw [Nat.one_mul] at h
  rw [Nat.add_comm m k, ← h, List.countP_append]

theorem countP_range'_succ (p : ℕ → Bool) (lo m : ℕ) :
    (List.range' lo (m + 1)).countP p =
      (List.range' lo m).countP p + cond (p (lo + m)) 1 0 := by
  rw [countP_range'_split, List.range'_one, List.countP_cons]
  cases h : p (lo + m) <;> simp [h]

theorem countP_range'_mono (p : ℕ → Bool) (lo len lo2 len2 : ℕ) (h1 : lo ≤ lo2)
    (h2 : lo2 + len2 ≤ lo + len) :
    (List.range' lo2 len2).countP p ≤ (List.range' lo len).countP p := by
  have hlen : len = (lo2 - lo) + (len2 + (lo + len - lo2 - len2)) := by omega
  rw [hlen, countP_range'_split, countP_range'_split]
  have hlo : lo + (lo2 - lo) = lo2 := by omega
  rw [hlo]
  omega

/-! Index arithmetic of the detector. -/

theorem endIdx_of_le (n idx w : ℕ) (h : w ≤ n) :
    endIdx n idx w = min idx (n - w) + 1 := by
  unfold endIdx; omega

theorem endIdx_of_gt (n idx w : ℕ) (h : n < w) : endIdx n idx w = 1 := by
  unfold endIdx; omega

theorem deltaIdx_pos (n idx w : ℕ) (h : idx < n) : 1 ≤ deltaIdx n idx w := by
  unfold deltaIdx endIdx startIdx; omega

theorem startIdx_add_deltaIdx (n idx w : ℕ) (h : idx < n) :
    startIdx idx w + deltaIdx n idx w = endIdx n idx w := by
  unfold deltaIdx endIdx startIdx; omega

theorem endIdx_le (n idx w : ℕ) (h : idx < n) : endIdx n idx w ≤ n := by
  unfold endIdx; omega

theorem windowSlice_length {α : Type} (series : List α) (w idx : ℕ) :
    (windowSlice series w idx).length =
      min (w + deltaIdx series.length idx w - 1)
        (series.length - startIdx idx w) := by
  simp [windowSlice]

theorem windowSlice_length_of_le {α : Type} (series : List α) (w idx : ℕ)
    (hw : w ≤ series.length) (hidx : idx < series.length) :
    (windowSlice series w idx).length =
      w + deltaIdx series.length idx w - 1 := by
  rw [windowSlice_length]
  unfold deltaIdx endIdx startIdx
  omega

theorem deltaIdx_le_windowSlice_length {α : Type} (series : List α)
    (w idx : ℕ) (hw : 1 ≤ w) (hidx : idx < series.length) :
    deltaIdx series.length idx w ≤ (windowSlice series w idx).length := by
  rw [windowSlice_length]
  unfold deltaIdx endIdx startIdx
  omega

theorem startIdx_add_windowSlice_length_le {α : Type} (series : List α)
    (w idx : ℕ) (hidx : idx < series.length) :
    startIdx idx w + (windowSlice series w idx).length ≤ series.length := by
  rw [windowSlice_length]
  unfold startIdx
  omega

/-! Element-level description of the window slice, the closeness vector and
the prefix sums. -/

theorem windowSlice_getD_eq {α : Type} [Inhabited α] (series : List α)
    (w idx j : ℕ) (hj : j < (windowSlice series w idx).length) :
    (windowSlice series w idx).getD j default =
      series.getD (startIdx idx w + j) default := by
  have hlen : j < series.length - startIdx idx w := by
    rw [windowSlice_length] at hj; omega
  have hb : startIdx idx w + j < series.length := by omega
  rw [List.getD_eq_getElem _ _ hj, List.getD_eq_getElem _ _ hb]
  simp only [windowSlice, List.getElem_take, List.getElem_drop]

theorem closenessList_length {α β : Type} [LinearOrder β] (series : List α)
    (w : ℕ) (t : β) (dist : α → α → β) (idx : ℕ) (item : α) :
    (closenessList series w t dist idx item).length =
      (windowSlice series w idx).length := by
  simp [closenessList]

theorem numCloseList_length {α β : Type} [LinearOrder β] (series : List α)
    (w : ℕ) (t : β) (dist : α → α → β) (idx : ℕ) (item : α) :
    (numCloseList series w t dist idx item).length =
      (windowSlice series w idx).length := by
  simp [numCloseList, cumsum_length, closenessList]

theorem closenessList_getD_eq {α β : Type} [Inhabited α] [LinearOrder β]
    (series : List α) (w : ℕ) (t : β) (dist : α → α → β) (idx j : ℕ)
    (hj : j < (windowSlice series w idx).length) :
    (closenessList series w t dist idx (series.getD idx default)).getD j false =
      closeB series t dist idx (startIdx idx w + j) := by
  have hj2 : j < (closenessList series w t dist idx
      (series.getD idx default)).length := by
    rw [closenessList_length]; exact hj
  have h1 : (windowSlice series w idx)[j] =
      series.getD (startIdx idx w + j) default := by
    rw [← windowSlice_getD_eq series w idx j hj]
    exact (List.getD_eq_getElem _ _ hj).symm
  rw [List.getD_eq_getElem _ _ hj2]
  unfold closenessList closeB
  rw [List.getElem_map]
  simp only [h1]

theorem closeness_take_countP {α β : Type} [Inhabited α] [LinearOrder β]
    (series : List α) (w : ℕ) (t : β) (dist : α → α → β) (idx m : ℕ)
    (hm : m ≤ (windowSlice series w idx).length) :
    ((closenessList series w t dist idx (series.getD idx default)).take m).countP
        id = cntC series t dist idx (startIdx idx w) m := by
  induction m with
  | zero => simp [cntC]
  | succ m ih =>
    have hm' : m < (windowSlice series w idx).length := by omega
    have hm2 : m < (closenessList series w t dist idx
        (series.getD idx default)).length := by
      rw [closenessList_length]; exact hm'
    have hsucc : cntC series t dist idx (startIdx idx w) (m + 1) =
        cntC series t dist idx (startIdx idx w) m +
          cond (closeB series t dist idx (startIdx idx w + m)) 1 0 := by
      unfold cntC; exact countP_range'_succ _ _ _
    have helt : (closenessList series w t dist idx (series.getD idx default))[m] =
        closeB series t dist idx (startIdx idx w + m) := by
      rw [← closenessList_getD_eq series w t dist idx m hm']
      exact (List.getD_eq_getElem _ _ hm2).symm
    rw [List.take_succ, List.getElem?_eq_getElem hm2, List.countP_append,
      ih (le_of_lt hm'), hsucc, helt]
    cases h : closeB series t dist idx (startIdx idx w + m) <;> simp [h]

theorem numClose_getD_eq {α β : Type} [Inhabited α] [LinearOrder β]
    (series : List α) (w : ℕ) (t : β) (dist : α → α → β) (idx k : ℕ)
    (hk : k < (windowSlice series w idx).length) :
    (numCloseList series w t dist idx (series.getD idx default)).getD k 0 =
      cntC series t dist idx (startIdx idx w) (k + 1) := by
  unfold numCloseList
  rw [cumsum_getD _ _ (by simpa [closenessList] using hk), ← List.map_take,
    sum_map_cond]
  exact closeness_take_countP series w t dist idx (k + 1) (by omega)

/-! Membership in the result list and the shape of the per-position test. -/

theorem range_zip_eq_map {α : Type} [Inhabited α] (l : List α) :
    (List.range l.length).zip l =
      (List.range l.length).map fun i => (i, l.getD i default) := by
  apply List.ext_getElem
  · simp
  · intro n h1 h2
    have hn : n < l.length := by simpa using h2
    simp only [List.getElem_zip, List.getElem_map, List.getElem_range]
    rw [List.getD_eq_getElem _ _ hn]

theorem mem_detector_iff {α β : Type} [Inhabited α] [LinearOrder β]
    (series : List α) (w : ℕ) (t : β) (nn : ℕ) (dist : α → α → β) (idx : ℕ) :
    idx ∈ get_segment_density_outliers_indices series w t nn dist ↔
      idx < series.length ∧
        outlierAt series w t nn dist idx (series.getD idx default) = true := by
  unfold get_segment_density_outliers_indices
  rw [range_zip_eq_map, List.filterMap_map, List.mem_filterMap]
  constructor
  · rintro ⟨a, ha, hfa⟩
    simp only [Function.comp_apply] at hfa
    by_cases h : outlierAt series w t nn dist a (series.getD a default) = true
    · rw [if_pos h] at hfa
      obtain rfl : a = idx := by simpa using hfa
      exact ⟨List.mem_range.mp ha, h⟩
    · rw [if_neg h] at hfa
      simp at hfa
  · rintro ⟨h1, h2⟩
    refine ⟨idx, List.mem_range.mpr h1, ?_⟩
    simp only [Function.comp_apply]
    rw [if_pos h2]

theorem detector_eq_nil_iff {α β : Type} [Inhabited α] [LinearOrder β]
    (series : List α) (w : ℕ) (t : β) (nn : ℕ) (dist : α → α → β) :
    get_segment_density_outliers_indices series w t nn dist = [] ↔
      ∀ idx < series.length,
        outlierAt series w t nn dist idx (series.getD idx default) = false := by
  rw [List.eq_nil_iff_forall_not_mem]
  constructor
  · intro h idx hidx
    have hm := h idx
    rw [mem_detector_iff] at hm
    rw [← Bool.not_eq_true]
    intro ho
    exact hm ⟨hidx, ho⟩
  · intro h a
    rw [mem_detector_iff]
    rintro ⟨ha, hout⟩
    rw [h a ha] at hout
    simp at hout

theorem outlierAt_eq_true_iff {α β : Type} [LinearOrder β] (series : List α)
    (w : ℕ) (t : β) (nn : ℕ) (dist : α → α → β) (idx : ℕ) (item : α) :
    outlierAt series w t nn dist idx item = true ↔
      ∀ d < deltaIdx series.length idx w,
        estNeighbors (closenessList series w t dist idx item)
          (numCloseList series w t dist idx item) (startIdx idx w)
          (deltaIdx series.length idx w) d idx < (nn : ℤ) := by
  unfold outlierAt
  simp [List.all_eq_true, List.mem_range]

/-! Closed form of the estimated neighbor count in terms of span counts. -/

theorem est_eq {α β : Type} [Inhabited α] [LinearOrder β] (series : List α)
    (w : ℕ) (t : β) (dist : α → α → β) (idx d : ℕ) (hw : 1 ≤ w)
    (hidx : idx < series.length) (hd : d < deltaIdx series.length idx w) :
    estNeighbors (closenessList series w t dist idx (series.getD idx default))
        (numCloseList series w t dist idx (series.getD idx default))
        (startIdx idx w) (deltaIdx series.length idx w) d idx =
      (cntC series t dist idx (startIdx idx w + d + 1)
          ((windowSlice series w idx).length -
            deltaIdx series.length idx w) : ℤ) +
        (if startIdx idx w + d ≠ idx then
          (cond (closeB series t dist idx (startIdx idx w + d)) 1 0 : ℤ) - 1
        else 0) := by
  have hdle := deltaIdx_le_windowSlice_length series w idx hw hidx
  have hk1 : (windowSlice series w idx).length + d -
      deltaIdx series.length idx w < (windowSlice series w idx).length := by
    omega
  have hdL : d < (windowSlice series w idx).length := by omega
  unfold estNeighbors
  rw [numCloseList_length]
  rw [numClose_getD_eq series w t dist idx _ hk1,
    numClose_getD_eq series w t dist idx _ hdL]
  have harg : (windowSlice series w idx).length + d -
      deltaIdx series.length idx w + 1 =
        (d + 1) + ((windowSlice series w idx).length -
          deltaIdx series.length idx w) := by omega
  have hsplit : cntC series t dist idx (startIdx idx w)
      ((d + 1) + ((windowSlice series w idx).length -
        deltaIdx series.length idx w)) =
      cntC series t dist idx (startIdx idx w) (d + 1) +
        cntC series t dist idx (startIdx idx w + d + 1)
          ((windowSlice series w idx).length -
            deltaIdx series.length idx w) := by
    unfold cntC
    rw [countP_range'_split]
    simp [Nat.add_assoc]
  rw [harg, hsplit]
  have hclose := closenessList_getD_eq series w t dist idx d hdL
  rw [hclose]
  push_cast
  ring

/-! Relations between the two span counts. -/

theorem countP_range'_extract (p : ℕ → Bool) (lo len j : ℕ) (h1 : lo ≤ j)
    (h2 : j < lo + len) :
    (List.range' lo len).countP p =
      (List.range' lo (j - lo)).countP p + cond (p j) 1 0 +
        (List.range' (j + 1) (lo + len - j - 1)).countP p := by
  have hlen : len = (j - lo) + (1 + (lo + len - j - 1)) := by omega
  have hlo : lo + (j - lo) = j := by omega
  conv_lhs => rw [hlen, countP_range'_split, hlo, countP_range'_split,
    List.range'_one]
  cases h : p j <;> (simp [List.countP_cons, h]; try omega)

theorem cntC_eq_cntO_of_not_mem {α β : Type} [Inhabited α] [LinearOrder β]
    (series : List α) (t : β) (dist : α → α → β) (idx lo len : ℕ)
    (h : idx < lo ∨ lo + len ≤ idx) :
    cntC series t dist idx lo len = cntO series t dist idx lo len := by
  unfold cntC cntO
  apply List.countP_congr
  intro k hk
  rw [List.mem_range'_1] at hk
  have hne : k ≠ idx := by omega
  simp [hne]

theorem cntC_eq_cntO_add_of_mem {α β : Type} [Inhabited α] [LinearOrder β]
    (series : List α) (t : β) (dist : α → α → β) (idx lo len : ℕ)
    (h1 : lo ≤ idx) (h2 : idx < lo + len) :
    cntC series t dist idx lo len =
      cntO series t dist idx lo len +
        cond (closeB series t dist idx idx) 1 0 := by
  unfold cntC cntO
  rw [countP_range'_extract _ lo len idx h1 h2,
    countP_range'_extract _ lo len idx h1 h2]
  have hpre := cntC_eq_cntO_of_not_mem series t dist idx lo (idx - lo)
    (by omega)
  have hpost := cntC_eq_cntO_of_not_mem series t dist idx (idx + 1)
    (lo + len - idx - 1) (by omega)
  unfold cntC cntO at hpre hpost
  rw [hpre, hpost]
  simp
  omega

theorem cntO_mono {α β : Type} [Inhabited α] [LinearOrder β]
    (series : List α) (t : β) (dist : α → α → β) (idx lo len lo2 len2 : ℕ)
    (h1 : lo ≤ lo2) (h2 : lo2 + len2 ≤ lo + len) :
    cntO series t dist idx lo2 len2 ≤ cntO series t dist idx lo len := by
  unfold cntO
  exact countP_range'_mono _ _ _ _ _ h1 h2

theorem cntO_extract_self {α β : Type} [Inhabited α] [LinearOrder β]
    (series : List α) (t : β) (dist : α → α → β) (idx lo len : ℕ)
    (h1 : lo ≤ idx) (h2 : idx < lo + len) :
    cntO series t dist idx lo len =
      cntO series t dist idx lo (idx - lo) +
        cntO series t dist idx (idx + 1) (lo + len - idx - 1) := by
  unfold cntO
  rw [countP_range'_extract _ lo len idx h1 h2]
  simp

theorem cntO_extract_at {α β : Type} [Inhabited α] [LinearOrder β]
    (series : List α) (t : β) (dist : α → α → β) (idx lo len j : ℕ)
    (h1 : lo ≤ j) (h2 : j < lo + len) (hj : j ≠ idx) :
    cntO series t dist idx lo len =
      cntO series t dist idx lo (j - lo) +
        cond (closeB series t dist idx j) 1 0 +
        cntO series t dist idx (j + 1) (lo + len - j - 1) := by
  unfold cntO
  rw [countP_range'_extract _ lo len j h1 h2]
  simp [hj]

theorem spec_count_eq_cntO {α β : Type} [Inhabited α] [LinearOrder β]
    (series : List α) (t : β) (dist : α → α → β) (idx sp w : ℕ) :
    (List.range' sp w).countP
        (fun k =>
          decide (k ≠ idx ∧
            dist (series.getD k default) (series.getD idx default) < t)) =
      cntO series t dist idx sp w := by
  unfold cntO closeB
  congr 1
  funext k
  simp [Bool.decide_and]

/-! Placement-level reading of the estimated neighbor count when the window
fits in the series. -/

theorem est_eq_cntO_of_containing {α β : Type} [Inhabited α] [LinearOrder β]
    (series : List α) (w : ℕ) (t : β) (dist : α → α → β) (idx d : ℕ)
    (hw : 1 ≤ w) (hwn : w ≤ series.length) (hidx : idx < series.length)
    (hd : d < deltaIdx series.length idx w)
    (hself : closeB series t dist idx idx = true)
    (hcont : idx < startIdx idx w + d + w) :
    estNeighbors (closenessList series w t dist idx (series.getD idx default))
        (numCloseList series w t dist idx (series.getD idx default))
        (startIdx idx w) (deltaIdx series.length idx w) d idx =
      (cntO series t dist idx (startIdx idx w + d) w : ℤ) := by
  have h1 := startIdx_add_deltaIdx series.length idx w hidx
  have h2 := endIdx_of_le series.length idx w hwn
  have hsp_le : startIdx idx w + d ≤ idx := by
    unfold startIdx at *; omega
  have hL := windowSlice_length_of_le series w idx hwn hidx
  have hpos := deltaIdx_pos series.length idx w hidx
  have hLd : (windowSlice series w idx).length -
      deltaIdx series.length idx w = w - 1 := by omega
  rw [est_eq series w t dist idx d hw hidx hd, hLd]
  by_cases hcase : startIdx idx w + d = idx
  · rw [if_neg (not_not_intro hcase), hcase]
    have hX := cntO_extract_self series t dist idx idx w (le_refl idx)
      (by omega)
    have hz : cntO series t dist idx idx (idx - idx) = 0 := by
      unfold cntO; simp
    rw [hX, hz]
    have harg : idx + w - idx - 1 = w - 1 := by omega
    rw [harg]
    have hCO := cntC_eq_cntO_of_not_mem series t dist idx (idx + 1) (w - 1)
      (Or.inl (by omega))
    rw [hCO]
    push_cast
    ring
  · have hlt : startIdx idx w + d < idx := by omega
    rw [if_pos hcase]
    have hCmem := cntC_eq_cntO_add_of_mem series t dist idx
      (startIdx idx w + d + 1) (w - 1) (by omega) (by omega)
    rw [hCmem, hself]
    have hX := cntO_extract_at series t dist idx (startIdx idx w + d) w
      (startIdx idx w + d) (le_refl _) (by omega) hcase
    have hz : cntO series t dist idx (startIdx idx w + d)
        (startIdx idx w + d - (startIdx idx w + d)) = 0 := by
      unfold cntO; simp
    rw [hX, hz]
    have harg : startIdx idx w + d + w - (startIdx idx w + d) - 1 = w - 1 := by
      omega
    rw [harg]
    cases hb : closeB series t dist idx (startIdx idx w + d) <;>
      (simp only [Bool.cond_true, Bool.cond_false]; push_cast; ring)

theorem est_le_adjacent {α β : Type} [Inhabited α] [LinearOrder β]
    (series : List α) (w : ℕ) (t : β) (dist : α → α → β) (idx d : ℕ)
    (hw : 1 ≤ w) (hwn : w ≤ series.length) (hidx : idx < series.length)
    (hd : d < deltaIdx series.length idx w)
    (hnc : startIdx idx w + d + w ≤ idx) :
    estNeighbors (closenessList series w t dist idx (series.getD idx default))
        (numCloseList series w t dist idx (series.getD idx default))
        (startIdx idx w) (deltaIdx series.length idx w) d idx ≤
      (cntO series t dist idx (idx - w + 1) w : ℤ) := by
  have h1 := startIdx_add_deltaIdx series.length idx w hidx
  have h2 := endIdx_of_le series.length idx w hwn
  have hd0 : d = 0 ∧ w ≤ idx ∧ startIdx idx w = idx - w := by
    unfold startIdx at *; omega
  obtain ⟨rfl, hwle, hs⟩ := hd0
  have hL := windowSlice_length_of_le series w idx hwn hidx
  have hpos := deltaIdx_pos series.length idx w hidx
  have hLd : (windowSlice series w idx).length -
      deltaIdx series.length idx w = w - 1 := by omega
  rw [est_eq series w t dist idx 0 hw hidx hd, hLd]
  rw [if_pos (by omega)]
  have hCO := cntC_eq_cntO_of_not_mem series t dist idx
    (startIdx idx w + 0 + 1) (w - 1) (Or.inr (by omega))
  rw [hCO]
  have hOX := cntO_extract_self series t dist idx (idx - w + 1) w
    (by omega) (by omega)
  have hz : cntO series t dist idx (idx + 1) ((idx - w + 1) + w - idx - 1) =
      0 := by
    have harg : (idx - w + 1) + w - idx - 1 = 0 := by omega
    rw [harg]; unfold cntO; simp
  rw [hOX, hz]
  have harg2 : idx - (idx - w + 1) = w - 1 := by omega
  have harg3 : startIdx idx w + 0 + 1 = idx - w + 1 := by omega
  have harg4 : startIdx idx w + 0 = idx - w := by omega
  rw [harg2, harg3, harg4]
  cases hb : closeB series t dist idx (idx - w) <;>
    (simp only [Bool.cond_true, Bool.cond_false]; push_cast; omega)

/-! Main correspondence between the detector and the specification-level
outlier characterisation, for windows that fit in the series and
distance functions under which every value is close to itself. -/

theorem detector_iff_spec {α β : Type} [Inhabited α] [LinearOrder β]
    (series : List α) (w : ℕ) (t : β) (nn : ℕ) (dist : α → α → β) (idx : ℕ)
    (hw : 1 ≤ w) (hwn : w ≤ series.length) (hidx : idx < series.length)
    (hself : ∀ x, dist x x < t) :
    idx ∈ get_segment_density_outliers_indices series w t nn dist ↔
      specIsOutlier series w t nn dist idx := by
  have h1 := startIdx_add_deltaIdx series.length idx w hidx
  have h2 := endIdx_of_le series.length idx w hwn
  have hselfB : closeB series t dist idx idx = true :=
    decide_eq_true (hself _)
  rw [mem_detector_iff]
  simp only [hidx, true_and]
  rw [outlierAt_eq_true_iff]
  unfold specIsOutlier
  constructor
  · intro hall sp hsp1 hsp2 hsp3
    rw [spec_count_eq_cntO]
    have hs_le : startIdx idx w ≤ sp := by unfold startIdx at *; omega
    have hd : sp - startIdx idx w < deltaIdx series.length idx w := by
      unfold startIdx at *; omega
    have hest := hall (sp - startIdx idx w) hd
    rw [est_eq_cntO_of_containing series w t dist idx _ hw hwn hidx hd hselfB
      (by omega)] at hest
    have hfold : startIdx idx w + (sp - startIdx idx w) = sp := by omega
    rw [hfold] at hest
    exact_mod_cast hest
  · intro hspec d hd
    by_cases hcont : idx < startIdx idx w + d + w
    · rw [est_eq_cntO_of_containing series w t dist idx d hw hwn hidx hd
        hselfB hcont]
      have hsple : startIdx idx w + d ≤ idx := by unfold startIdx at *; omega
      have hinb : (startIdx idx w + d) + w ≤ series.length := by
        unfold startIdx at *; omega
      have hcnt := hspec (startIdx idx w + d) hsple hinb (by omega)
      rw [spec_count_eq_cntO] at hcnt
      exact_mod_cast hcnt
    · push_neg at hcont
      have hle := est_le_adjacent series w t dist idx d hw hwn hidx hd hcont
      have hwle : w ≤ idx := by unfold startIdx at hcont; omega
      have hcnt := hspec (idx - w + 1) (by omega) (by omega) (by omega)
      rw [spec_count_eq_cntO] at hcnt
      calc estNeighbors (closenessList series w t dist idx
            (series.getD idx default))
            (numCloseList series w t dist idx (series.getD idx default))
            (startIdx idx w) (deltaIdx series.length idx w) d idx
          ≤ (cntO series t dist idx (idx - w + 1) w : ℤ) := hle
        _ < (nn : ℤ) := by exact_mod_cast hcnt

/-! General bound: no placement estimate exceeds the number of close other
positions in the examined span (the window slice), for any window size. -/

theorem est_le_span {α β : Type} [Inhabited α] [LinearOrder β]
    (series : List α) (w : ℕ) (t : β) (dist : α → α → β) (idx d : ℕ)
    (hw : 1 ≤ w) (hidx : idx < series.length)
    (hd : d < deltaIdx series.length idx w) :
    estNeighbors (closenessList series w t dist idx (series.getD idx default))
        (numCloseList series w t dist idx (series.getD idx default))
        (startIdx idx w) (deltaIdx series.length idx w) d idx ≤
      (cntO series t dist idx (startIdx idx w)
        (windowSlice series w idx).length : ℤ) := by
  have hdle := deltaIdx_le_windowSlice_length series w idx hw hidx
  rw [est_eq series w t dist idx d hw hidx hd]
  by_cases hcase : startIdx idx w + d = idx
  · rw [if_neg (not_not_intro hcase)]
    have hC : cntC series t dist idx (startIdx idx w + d + 1)
        ((windowSlice series w idx).length - deltaIdx series.length idx w) =
        cntO series t dist idx (startIdx idx w + d + 1)
          ((windowSlice series w idx).length -
            deltaIdx series.length idx w) :=
      cntC_eq_cntO_of_not_mem series t dist idx _ _ (Or.inl (by omega))
    rw [hC]
    have hm : cntO series t dist idx (startIdx idx w + d + 1)
        ((windowSlice series w idx).length - deltaIdx series.length idx w) ≤
        cntO series t dist idx (startIdx idx w)
          (windowSlice series w idx).length :=
      cntO_mono series t dist idx _ _ _ _ (by omega) (by omega)
    omega
  · rw [if_pos hcase]
    have hsplit := cntO_extract_at series t dist idx (startIdx idx w)
      (windowSlice series w idx).length (startIdx idx w + d) (by omega)
      (by omega) hcase
    have hm : cntO series t dist idx (startIdx idx w + d + 1)
        ((windowSlice series w idx).length - deltaIdx series.length idx w) ≤
        cntO series t dist idx (startIdx idx w + d + 1)
          (startIdx idx w + (windowSlice series w idx).length -
            (startIdx idx w + d) - 1) :=
      cntO_mono series t dist idx _ _ _ _ (le_refl _) (by omega)
    by_cases hmem : startIdx idx w + d + 1 ≤ idx ∧
        idx < startIdx idx w + d + 1 +
          ((windowSlice series w idx).length - deltaIdx series.length idx w)
    · have hC := cntC_eq_cntO_add_of_mem series t dist idx
        (startIdx idx w + d + 1)
        ((windowSlice series w idx).length - deltaIdx series.length idx w)
        hmem.1 hmem.2
      rw [hC]
      cases hb : closeB series t dist idx (startIdx idx w + d) <;>
        cases hb2 : closeB series t dist idx idx <;>
          (simp only [hb, hb2, Bool.cond_true, Bool.cond_false] at hsplit ⊢;
            omega)
    · have hC := cntC_eq_cntO_of_not_mem series t dist idx
        (startIdx idx w + d + 1)
        ((windowSlice series w idx).length - deltaIdx series.length idx w)
        (by omega)
      rw [hC]
      cases hb : closeB series t dist idx (startIdx idx w + d) <;>
        (simp only [hb, Bool.cond_true, Bool.cond_false] at hsplit ⊢; omega)

/-! Monotonicity of the estimates in the distance threshold. -/

theorem closeB_mono_t {α β : Type} [Inhabited α] [LinearOrder β]
    (series : List α) (dist : α → α → β) (idx k : ℕ) (t1 t2 : β)
    (h : t1 ≤ t2) (hb : closeB series t1 dist idx k = true) :
    closeB series t2 dist idx k = true := by
  unfold closeB at *
  exact decide_eq_true (lt_of_lt_of_le (of_decide_eq_true hb) h)

theorem cntC_mono_t {α β : Type} [Inhabited α] [LinearOrder β]
    (series : List α) (dist : α → α → β) (idx lo len : ℕ) (t1 t2 : β)
    (h : t1 ≤ t2) :
    cntC series t1 dist idx lo len ≤ cntC series t2 dist idx lo len := by
  unfold cntC
  exact List.countP_mono_left fun k _ hk =>
    closeB_mono_t series dist idx k t1 t2 h hk

theorem est_mono_t {α β : Type} [Inhabited α] [LinearOrder β]
    (series : List α) (w : ℕ) (dist : α → α → β) (idx d : ℕ) (t1 t2 : β)
    (hw : 1 ≤ w) (hidx : idx < series.length)
    (hd : d < deltaIdx series.length idx w) (h : t1 ≤ t2) :
    estNeighbors (closenessList series w t1 dist idx (series.getD idx default))
        (numCloseList series w t1 dist idx (series.getD idx default))
        (startIdx idx w) (deltaIdx series.length idx w) d idx ≤
      estNeighbors (closenessList series w t2 dist idx (series.getD idx default))
        (numCloseList series w t2 dist idx (series.getD idx default))
        (startIdx idx w) (deltaIdx series.length idx w) d idx := by
  rw [est_eq series w t1 dist idx d hw hidx hd,
    est_eq series w t2 dist idx d hw hidx hd]
  have hc := cntC_mono_t series dist idx (startIdx idx w + d + 1)
    ((windowSlice series w idx).length - deltaIdx series.length idx w) t1 t2 h
  by_cases hcase : startIdx idx w + d ≠ idx
  · rw [if_pos hcase, if_pos hcase]
    cases hb1 : closeB series t1 dist idx (startIdx idx w + d)
    · cases hb2 : closeB series t2 dist idx (startIdx idx w + d) <;>
        (simp only [Bool.cond_true, Bool.cond_false]; omega)
    · rw [closeB_mono_t series dist idx _ t1 t2 h hb1]
      simp only [Bool.cond_true]
      omega
  · rw [if_neg hcase, if_neg hcase]
    omega

/-! Orchestrator-level facts. -/

theorem segmentOutliers_key {τ : Type} [Inhabited τ] (w : ℕ) (coef : ℚ)
    (nn : ℕ) (dist : ℚ → ℚ → ℚ) (stdFn : List ℚ → ℚ)
    (seg : String × List (τ × Option ℚ)) (b : String × List τ)
    (hf : segmentOutliers w coef nn dist stdFn seg = some b) : b.1 = seg.1 := by
  simp only [segmentOutliers] at hf
  split_ifs at hf
  · rw [Option.some.injEq] at hf
    rw [← hf]

theorem segmentOutliers_some_iff {τ : Type} [Inhabited τ] (w : ℕ) (coef : ℚ)
    (nn : ℕ) (dist : ℚ → ℚ → ℚ) (stdFn : List ℚ → ℚ) (name : String)
    (rows : List (τ × Option ℚ)) :
    (∃ l, segmentOutliers w coef nn dist stdFn (name, rows) = some (name, l)) ↔
      (stdFn (segValues rows) ≠ 0 ∧
        get_segment_density_outliers_indices (segValues rows) w
          (coef * stdFn (segValues rows)) nn dist ≠ []) := by
  simp only [segmentOutliers, segValues]
  split_ifs with h1 h2
  · exact iff_of_true ⟨_, rfl⟩ ⟨h1, h2⟩
  · constructor
    · rintro ⟨l, hl⟩
      exact absurd hl (by simp)
    · rintro ⟨-, hc⟩
      exact absurd hc h2
  · constructor
    · rintro ⟨l, hl⟩
      exact absurd hl (by simp)
    · rintro ⟨hc, -⟩
      exact absurd hc h1

theorem get_anomalies_density_cons_none {τ : Type} [Inhabited τ]
    (hd : String × List (τ × Option ℚ)) (tl : List (String × List (τ × Option ℚ)))
    (w : ℕ) (coef : ℚ) (nn : ℕ) (dist : ℚ → ℚ → ℚ) (stdFn : List ℚ → ℚ)
    (hfo : segmentOutliers w coef nn dist stdFn hd = none) :
    get_anomalies_density (hd :: tl) w coef nn dist stdFn =
      get_anomalies_density tl w coef nn dist stdFn := by
  unfold get_anomalies_density
  rw [List.filterMap_cons, hfo]

theorem get_anomalies_density_cons_some {τ : Type} [Inhabited τ]
    (hd : String × List (τ × Option ℚ)) (tl : List (String × List (τ × Option ℚ)))
    (w : ℕ) (coef : ℚ) (nn : ℕ) (dist : ℚ → ℚ → ℚ) (stdFn : List ℚ → ℚ)
    (b : String × List τ)
    (hfo : segmentOutliers w coef nn dist stdFn hd = some b) :
    get_anomalies_density (hd :: tl) w coef nn dist stdFn =
      b :: get_anomalies_density tl w coef nn dist stdFn := by
  unfold get_anomalies_density
  rw [List.filterMap_cons, hfo]

theorem anomalies_key_mem {τ : Type} [Inhabited τ]
    (ts : List (String × List (τ × Option ℚ))) (w : ℕ) (coef : ℚ) (nn : ℕ)
    (dist : ℚ → ℚ → ℚ) (stdFn : List ℚ → ℚ) (name : String) (l : List τ)
    (h : (name, l) ∈ get_anomalies_density ts w coef nn dist stdFn) :
    name ∈ ts.map Prod.fst := by
  unfold get_anomalies_density at h
  rw [List.mem_filterMap] at h
  obtain ⟨seg, hseg, hf⟩ := h
  have hk := segmentOutliers_key w coef nn dist stdFn seg (name, l) hf
  exact List.mem_map.mpr ⟨seg, hseg, hk.symm⟩

theorem anomalies_keys_iff {τ : Type} [Inhabited τ]
    (ts : List (String × List (τ × Option ℚ))) (w : ℕ) (coef : ℚ) (nn : ℕ)
    (dist : ℚ → ℚ → ℚ) (stdFn : List ℚ → ℚ) (name : String)
    (rows : List (τ × Option ℚ)) (hmem : (name, rows) ∈ ts)
    (hnodup : (ts.map Prod.fst).Nodup) :
    (∃ l, (name, l) ∈ get_anomalies_density ts w coef nn dist stdFn) ↔
      (stdFn (segValues rows) ≠ 0 ∧
        get_segment_density_outliers_indices (segValues rows) w
          (coef * stdFn (segValues rows)) nn dist ≠ []) := by
  induction ts with
  | nil => cases hmem
  | cons hd tl ih =>
    rw [List.map_cons, List.nodup_cons] at hnodup
    obtain ⟨hhd, htl⟩ := hnodup
    rcases List.mem_cons.mp hmem with heq | hmem2
    · subst heq
      cases hfo : segmentOutliers w coef nn dist stdFn (name, rows) with
      | none =>
        rw [get_anomalies_density_cons_none _ _ _ _ _ _ _ hfo]
        constructor
        · rintro ⟨l, hl⟩
          exact absurd (anomalies_key_mem tl w coef nn dist stdFn name l hl)
            hhd
        · intro hc
          obtain ⟨l, hl⟩ :=
            (segmentOutliers_some_iff w coef nn dist stdFn name rows).mpr hc
          rw [hfo] at hl
          cases hl
      | some b =>
        rw [get_anomalies_density_cons_some _ _ _ _ _ _ _ _ hfo]
        have hb1 : b.1 = name :=
          segmentOutliers_key w coef nn dist stdFn (name, rows) b hfo
        constructor
        · intro _
          refine (segmentOutliers_some_iff w coef nn dist stdFn
            name rows).mp ?_
          obtain ⟨b1, b2⟩ := b
          obtain rfl : b1 = name := hb1
          exact ⟨b2, hfo⟩
        · intro _
          obtain ⟨b1, b2⟩ := b
          obtain rfl : b1 = name := hb1
          exact ⟨b2, List.mem_cons_self _ _⟩
    · have hne : hd.1 ≠ name := by
        intro he
        exact hhd (he ▸ List.mem_map.mpr ⟨(name, rows), hmem2, rfl⟩)
      have hih := ih hmem2 htl
      cases hfo : segmentOutliers w coef nn dist stdFn hd with
      | none =>
        rw [get_anomalies_density_cons_none _ _ _ _ _ _ _ hfo]
        exact hih
      | some b =>
        rw [get_anomalies_density_cons_some _ _ _ _ _ _ _ _ hfo]
        have hb1 : b.1 = hd.1 :=
          segmentOutliers_key w coef nn dist stdFn hd b hfo
        rw [← hih]
        constructor
        · rintro ⟨l, hl⟩
          rcases List.mem_cons.mp hl with heq2 | hl2
          · exact absurd (by rw [← heq2] at hb1; exact hb1.symm) hne
          · exact ⟨l, hl2⟩
        · rintro ⟨l, hl⟩
          exact ⟨l, List.mem_cons_of_mem _ hl⟩

/-! Behaviour on the constant series `[5, 5, 5, 5, 5]`. -/

theorem closeB_const5 (t : ℚ) (ht : 0 < t) (idx k : ℕ) (hidx : idx < 5)
    (hk : k < 5) :
    closeB ([5, 5, 5, 5, 5] : List ℚ) t absolute_difference_distance idx k =
      true := by
  have h1 : ([5, 5, 5, 5, 5] : List ℚ).getD k default = 5 := by
    interval_cases k <;> rfl
  have h2 : ([5, 5, 5, 5, 5] : List ℚ).getD idx default = 5 := by
    interval_cases idx <;> rfl
  unfold closeB absolute_difference_distance
  simp only [h1, h2]
  apply decide_eq_true
  simpa using ht

theorem cntC_const5 (t : ℚ) (ht : 0 < t) (idx lo len : ℕ) (hidx : idx < 5)
    (hspan : lo + len ≤ 5) :
    cntC ([5, 5, 5, 5, 5] : List ℚ) t absolute_difference_distance idx lo len =
      len := by
  unfold cntC
  refine Eq.trans (List.countP_eq_length.mpr ?_) (by simp)
  intro k hk
  rw [List.mem_range'_1] at hk
  exact closeB_const5 t ht idx k hidx (by omega)

theorem est5_arith (w idx d : ℕ) (hw : 1 ≤ w) (hidx : idx < 5)
    (hd : d < deltaIdx ([5, 5, 5, 5, 5] : List ℚ).length idx w) :
    (windowSlice ([5, 5, 5, 5, 5] : List ℚ) w idx).length -
        deltaIdx ([5, 5, 5, 5, 5] : List ℚ).length idx w = min w 5 - 1 ∧
      startIdx idx w + d + 1 + (min w 5 - 1) ≤ 5 ∧
      startIdx idx w + d < 5 := by
  rw [windowSlice_length]
  have hlen : ([5, 5, 5, 5, 5] : List ℚ).length = 5 := rfl
  rw [hlen] at hd ⊢
  unfold deltaIdx endIdx startIdx at hd ⊢
  omega

theorem est_const5 (w : ℕ) (t : ℚ) (idx d : ℕ) (hw : 1 ≤ w) (ht : 0 < t)
    (hidx : idx < 5)
    (hd : d < deltaIdx ([5, 5, 5, 5, 5] : List ℚ).length idx w) :
    estNeighbors
        (closenessList ([5, 5, 5, 5, 5] : List ℚ) w t
          absolute_difference_distance idx
          (([5, 5, 5, 5, 5] : List ℚ).getD idx default))
        (numCloseList ([5, 5, 5, 5, 5] : List ℚ) w t
          absolute_difference_distance idx
          (([5, 5, 5, 5, 5] : List ℚ).getD idx default))
        (startIdx idx w) (deltaIdx ([5, 5, 5, 5, 5] : List ℚ).length idx w)
        d idx =
      (min w 5 : ℤ) - 1 := by
  obtain ⟨hLd, hspan, hsd⟩ := est5_arith w idx d hw hidx hd
  rw [est_eq ([5, 5, 5, 5, 5] : List ℚ) w t absolute_difference_distance idx d
    hw hidx hd]
  rw [hLd]
  rw [cntC_const5 t ht idx _ _ hidx (by omega)]
  by_cases hcase : startIdx idx w + d ≠ idx
  · rw [if_pos hcase,
      closeB_const5 t ht idx (startIdx idx w + d) hidx hsd]
    simp only [Bool.cond_true]
    omega
  · rw [if_neg hcase]
    omega

/-! Claim-level theorems. -/

/-- C1 counterexample: the claim as stated fails.  With `window_size = 3` on
the two-element series `[5, 5]` (so `n ≥ 1`, `window_size ≥ 1`,
`distance_threshold = 1 ≥ 0`, `n_neighbors = 1 ≥ 1`), no in-bounds window
placement of width 3 exists, so the specification side holds vacuously at
position 0, yet the detector judges position 0 close to position 1 inside its
clamped slice and returns no outliers: the two sides of the claimed
equivalence disagree. -/
theorem C1_claim_counterexample :
    specIsOutlier ([5, 5] : List ℚ) 3 1 1 (fun x y => if x = y then 0 else 1)
        0 ∧
      0 ∉ get_segment_density_outliers_indices ([5, 5] : List ℚ) 3 1 1
        (fun x y => if x = y then 0 else 1) := by decide

/-- C1 (amended): for every rational series with `n ≥ 1`, `window_size ≥ 1`,
`distance_threshold ≥ 0`, `n_neighbors ≥ 1` and distance function, and
additionally `window_size ≤ n` together with self-closeness of the distance
function (`dist x x < t` for every value, which the default absolute
difference satisfies for every positive threshold), a position `idx` is in
the returned list iff, across every in-bounds window placement of width
`window_size` that contains `idx`, the count of other positions in that
placement whose distance to `series[idx]` is strictly below
`distance_threshold` never reaches `n_neighbors`. -/
theorem C1_outlier_iff_spec (series : List ℚ) (w : ℕ) (t : ℚ) (nn : ℕ)
    (dist : ℚ → ℚ → ℚ) (idx : ℕ) (hn : 1 ≤ series.length) (hw : 1 ≤ w)
    (hwn : w ≤ series.length) (ht : 0 ≤ t) (hnn : 1 ≤ nn)
    (hself : ∀ x : ℚ, dist x x < t) (hidx : idx < series.length) :
    idx ∈ get_segment_density_outliers_indices series w t nn dist ↔
      specIsOutlier series w t nn dist idx :=
  detector_iff_spec series w t nn dist idx hw hwn hidx hself

/-- C1 witness: the amended equivalence applied to the concrete series
`[1, 1, 100]` with `window_size = 2`, threshold 1, one required neighbor and
the absolute-difference distance, at position 2. -/
theorem C1_outlier_iff_spec_witness :
    2 ∈ get_segment_density_outliers_indices ([1, 1, 100] : List ℚ) 2 1 1
        absolute_difference_distance ↔
      specIsOutlier ([1, 1, 100] : List ℚ) 2 1 1
        absolute_difference_distance 2 :=
  C1_outlier_iff_spec [1, 1, 100] 2 1 1 absolute_difference_distance 2
    (by decide) (by decide) (by decide) (by decide) (by decide)
    (fun x => by simp [absolute_difference_distance]) (by decide)

/-- C2 counterexample: the claim as stated fails.  For the two-element series
with `window_size = 1` (so `n ≥ 1`, `window_size ≥ 1`), position 1 gets
`delta = end - start = 2 > window_size`. -/
theorem C2_claim_counterexample :
    deltaIdx ([5, 5] : List ℚ).length 1 1 = 2 ∧
      ¬ deltaIdx ([5, 5] : List ℚ).length 1 1 ≤ 1 := by decide

/-- C2 (amended): for every series of length `n ≥ 1`, every
`window_size ≥ 1` and every position `idx` in `0..n-1`, the quantity
`delta = end - start` the detector computes for `idx` on this series, with
`start = max(0, idx - window_size)` and
`end = max(0, min(idx, n - window_size)) + 1`, satisfies
`1 ≤ delta ≤ window_size + 1`. -/
theorem C2_delta_bounds (series : List ℚ) (w idx : ℕ)
    (hn : 1 ≤ series.length) (hw : 1 ≤ w) (hidx : idx < series.length) :
    1 ≤ deltaIdx series.length idx w ∧
      deltaIdx series.length idx w ≤ w + 1 := by
  unfold deltaIdx endIdx startIdx
  omega

/-- C2 witness: the delta bounds on the eleven-element series of the spec's
first concrete scenario, at `idx = 5`, `window_size = 3` (there
`delta = 4 = window_size + 1`, inside the amended bounds). -/
theorem C2_delta_bounds_witness :
    1 ≤ deltaIdx ([1, 1, 1, 1, 1, 1, 1, 1, 1, 1, 100] : List ℚ).length 5 3 ∧
      deltaIdx ([1, 1, 1, 1, 1, 1, 1, 1, 1, 1, 100] : List ℚ).length 5 3 ≤
        3 + 1 :=
  C2_delta_bounds [1, 1, 1, 1, 1, 1, 1, 1, 1, 1, 100] 3 5 (by decide)
    (by decide) (by decide)

/-- C3 counterexample: the claim as stated fails.  For the one-element series
with `window_size = 2` (so `n ≥ 1`, `window_size ≥ 1`), the examined slice at
position 0 has length 1, not `window_size + delta - 1 = 2`: the Python slice
clamps at the end of the series. -/
theorem C3_claim_counterexample :
    (windowSlice ([5] : List ℚ) 2 0).length = 1 ∧
      ¬ (windowSlice ([5] : List ℚ) 2 0).length =
          2 + deltaIdx ([5] : List ℚ).length 0 2 - 1 := by decide

/-- C3 (amended): for every series of length `n ≥ 1`, every
`window_size ≥ 1` with `window_size ≤ n` and every position `idx < n`, the
contiguous sub-sequence examined by the detector for `idx` has length exactly
`window_size + delta - 1`. -/
theorem C3_window_length (series : List ℚ) (w idx : ℕ)
    (hn : 1 ≤ series.length) (hw : 1 ≤ w) (hwn : w ≤ series.length)
    (hidx : idx < series.length) :
    (windowSlice series w idx).length =
      w + deltaIdx series.length idx w - 1 :=
  windowSlice_length_of_le series w idx hwn hidx

/-- C3 witness: the slice length at series `[1, 2, 3]`, `window_size = 2`,
position 1. -/
theorem C3_window_length_witness :
    (windowSlice ([1, 2, 3] : List ℚ) 2 1).length =
      2 + deltaIdx ([1, 2, 3] : List ℚ).length 1 2 - 1 :=
  C3_window_length [1, 2, 3] 2 1 (by decide) (by decide) (by decide)
    (by decide)

/-- C4: self-exclusion.  For every series, threshold, distance function,
position `idx` and window placement `d` evaluated by the detector
(`window_size ≥ 1`, `idx < n`, `d < delta`), the estimated neighbor count is
at most the number of positions other than `idx` in the examined span whose
distance to `series[idx]` is strictly below the threshold; in particular the
closeness of `idx` to itself is never counted. -/
theorem C4_self_exclusion (series : List ℚ) (w : ℕ) (t : ℚ)
    (dist : ℚ → ℚ → ℚ) (idx d : ℕ) (hw : 1 ≤ w) (hidx : idx < series.length)
    (hd : d < deltaIdx series.length idx w) :
    estNeighbors (closenessList series w t dist idx (series.getD idx default))
        (numCloseList series w t dist idx (series.getD idx default))
        (startIdx idx w) (deltaIdx series.length idx w) d idx ≤
      (cntO series t dist idx (startIdx idx w)
        (windowSlice series w idx).length : ℤ) :=
  est_le_span series w t dist idx d hw hidx hd

/-- C4 witness: the self-exclusion bound at series `[1, 2]`,
`window_size = 1`, threshold 1, position 0, placement 0. -/
theorem C4_self_exclusion_witness :
    estNeighbors
        (closenessList ([1, 2] : List ℚ) 1 1 absolute_difference_distance 0
          (([1, 2] : List ℚ).getD 0 default))
        (numCloseList ([1, 2] : List ℚ) 1 1 absolute_difference_distance 0
          (([1, 2] : List ℚ).getD 0 default))
        (startIdx 0 1) (deltaIdx ([1, 2] : List ℚ).length 0 1) 0 0 ≤
      (cntO ([1, 2] : List ℚ) 1 absolute_difference_distance 0 (startIdx 0 1)
        (windowSlice ([1, 2] : List ℚ) 1 0).length : ℤ) :=
  C4_self_exclusion [1, 2] 1 1 absolute_difference_distance 0 0 (by decide)
    (by decide) (by decide)

/-- C5: threshold monotonicity.  For every rational series,
`window_size ≥ 1`, neighbor threshold, distance function and thresholds
`t1 ≤ t2`, the outlier list at threshold `t2` is a sublist (as a set) of the
outlier list at threshold `t1`. -/
theorem C5_threshold_monotonic (series : List ℚ) (w nn : ℕ)
    (dist : ℚ → ℚ → ℚ) (t1 t2 : ℚ) (hw : 1 ≤ w) (h : t1 ≤ t2) :
    get_segment_density_outliers_indices series w t2 nn dist ⊆
      get_segment_density_outliers_indices series w t1 nn dist := by
  intro idx hm
  rw [mem_detector_iff] at hm ⊢
  obtain ⟨hidx, hout⟩ := hm
  refine ⟨hidx, ?_⟩
  rw [outlierAt_eq_true_iff] at hout ⊢
  intro d hd
  exact lt_of_le_of_lt (est_mono_t series w dist idx d t1 t2 hw hidx hd h)
    (hout d hd)

/-- C5 witness: threshold monotonicity at series `[1, 7]`,
`window_size = 1`, thresholds 1 and 2. -/
theorem C5_threshold_monotonic_witness :
    get_segment_density_outliers_indices ([1, 7] : List ℚ) 1 2 1
        absolute_difference_distance ⊆
      get_segment_density_outliers_indices ([1, 7] : List ℚ) 1 1 1
        absolute_difference_distance :=
  C5_threshold_monotonic [1, 7] 1 1 absolute_difference_distance 1 2
    (by decide) (by decide)

/-- C6: neighbor-count monotonicity.  For every series, window size,
threshold and distance function, and neighbor thresholds `m1 ≤ m2`, the
outlier list at `m1` is contained in the outlier list at `m2`. -/
theorem C6_neighbor_monotonic (series : List ℚ) (w : ℕ) (t : ℚ)
    (dist : ℚ → ℚ → ℚ) (m1 m2 : ℕ) (h : m1 ≤ m2) :
    get_segment_density_outliers_indices series w t m1 dist ⊆
      get_segment_density_outliers_indices series w t m2 dist := by
  intro idx hm
  rw [mem_detector_iff] at hm ⊢
  obtain ⟨hidx, hout⟩ := hm
  refine ⟨hidx, ?_⟩
  rw [outlierAt_eq_true_iff] at hout ⊢
  intro d hd
  have hcast : (m1 : ℤ) ≤ m2 := by exact_mod_cast h
  exact lt_of_lt_of_le (hout d hd) hcast

/-- C6 witness: neighbor-count monotonicity at series `[1, 7]`,
`window_size = 1`, neighbor thresholds 1 and 2. -/
theorem C6_neighbor_monotonic_witness :
    get_segment_density_outliers_indices ([1, 7] : List ℚ) 1 1 1
        absolute_difference_distance ⊆
      get_segment_density_outliers_indices ([1, 7] : List ℚ) 1 1 2
        absolute_difference_distance :=
  C6_neighbor_monotonic [1, 7] 1 1 absolute_difference_distance 1 2
    (by decide)

/-- C7: a segment name appears as a key of the mapping returned by
`get_anomalies_density` iff the standard deviation of its post-drop series is
nonzero (the Python truthiness test `if series_std:`) and the per-series
detector, invoked with threshold `distance_coef * std`, returns at least one
index.  In particular zero-std segments are skipped and segments with zero
detected outliers are absent rather than mapped to an empty list. -/
theorem C7_segment_keys {τ : Type} [Inhabited τ]
    (ts : List (String × List (τ × Option ℚ))) (w : ℕ) (coef : ℚ) (nn : ℕ)
    (dist : ℚ → ℚ → ℚ) (stdFn : List ℚ → ℚ) (name : String)
    (rows : List (τ × Option ℚ)) (hmem : (name, rows) ∈ ts)
    (hnodup : (ts.map Prod.fst).Nodup) :
    (∃ l, (name, l) ∈ get_anomalies_density ts w coef nn dist stdFn) ↔
      (stdFn (segValues rows) ≠ 0 ∧
        get_segment_density_outliers_indices (segValues rows) w
          (coef * stdFn (segValues rows)) nn dist ≠ []) :=
  anomalies_keys_iff ts w coef nn dist stdFn name rows hmem hnodup

/-- C7 witness: the key characterisation on a two-segment dataset, applied to
the second segment. -/
theorem C7_segment_keys_witness :
    (∃ l, ("spiky", l) ∈ get_anomalies_density
        [("flat", [((0 : ℕ), some (1 : ℚ))]),
          ("spiky", [((1 : ℕ), some (2 : ℚ))])] 1 1 1
        absolute_difference_distance fun _ => 1) ↔
      ((1 : ℚ) ≠ 0 ∧
        get_segment_density_outliers_indices
          (segValues [((1 : ℕ), some (2 : ℚ))]) 1 (1 * 1) 1
          absolute_difference_distance ≠ []) :=
  C7_segment_keys
    [("flat", [((0 : ℕ), some (1 : ℚ))]), ("spiky", [((1 : ℕ), some (2 : ℚ))])]
    1 1 1 absolute_difference_distance (fun _ => 1) "spiky"
    [((1 : ℕ), some (2 : ℚ))] (by decide) (by decide)

/-- C8: on the series `[1,1,1,1,1,1,1,1,1,1,100]` with `window_size = 3`,
`distance_threshold = 5`, `n_neighbors = 2` and the absolute-difference
distance, the detector returns exactly `[10]`: the position of the value 100
is an outlier and no 1-valued position is.  The data are integers, so the
run is carried out in `ℤ`, where the arithmetic is exact. -/
theorem C8_concrete_scenario :
    get_segment_density_outliers_indices
        ([1, 1, 1, 1, 1, 1, 1, 1, 1, 1, 100] : List ℤ) 3 5 2
        absolute_difference_distance = [10] := by decide

/-- C9 counterexample: the claim as stated fails.  On the constant series
`[5, 5, 5, 5, 5]` with `window_size = 1`, threshold `1 > 0` and
`n_neighbors = 1`, every window placement contains only the position itself,
so no position has any close neighbor and the detector flags every position
rather than none. -/
theorem C9_claim_counterexample :
    get_segment_density_outliers_indices ([5, 5, 5, 5, 5] : List ℚ) 1 1 1
      absolute_difference_distance ≠ [] := by
  intro hnil
  rw [detector_eq_nil_iff] at hnil
  have hfalse := hnil 0 (by decide)
  have htrue : outlierAt ([5, 5, 5, 5, 5] : List ℚ) 1 1 1
      absolute_difference_distance 0
      (([5, 5, 5, 5, 5] : List ℚ).getD 0 default) = true := by
    rw [outlierAt_eq_true_iff]
    intro d hd
    have hdlt : deltaIdx ([5, 5, 5, 5, 5] : List ℚ).length 0 1 = 1 := by
      decide
    obtain rfl : d = 0 := by omega
    rw [est_const5 1 1 0 0 (by decide) (by decide) (by decide) hd]
    decide
  rw [hfalse] at htrue
  simp at htrue

/-- C9 (amended): on the constant series `[5, 5, 5, 5, 5]`, for every
`window_size ≥ 1`, every rational threshold `t > 0` and every
`n_neighbors ≥ 1` with `n_neighbors ≤ min window_size 5 - 1`, the detector
with the absolute-difference distance returns the empty list: every position
then has enough close neighbors in some window placement. -/
theorem C9_constant_series (w nn : ℕ) (t : ℚ) (hw : 1 ≤ w) (ht : 0 < t)
    (hnn : 1 ≤ nn) (hbound : nn ≤ min w 5 - 1) :
    get_segment_density_outliers_indices ([5, 5, 5, 5, 5] : List ℚ) w t nn
      absolute_difference_distance = [] := by
  rw [detector_eq_nil_iff]
  intro idx hidx
  have hidx5 : idx < 5 := hidx
  rw [← Bool.not_eq_true, outlierAt_eq_true_iff]
  intro hall
  have h0 : 0 < deltaIdx ([5, 5, 5, 5, 5] : List ℚ).length idx w :=
    deltaIdx_pos _ idx w hidx
  have hest := hall 0 h0
  rw [est_const5 w t idx 0 hw ht hidx5 h0] at hest
  omega

/-- C9 witness: the amended statement applied at `window_size = 3`,
threshold 1, `n_neighbors = 2`. -/
theorem C9_constant_series_witness :
    get_segment_density_outliers_indices ([5, 5, 5, 5, 5] : List ℚ) 3 1 2
      absolute_difference_distance = [] :=
  C9_constant_series 3 2 1 (by decide) (by decide) (by decide) (by decide)

/-- C10: on the empty series, for every window size, threshold, neighbor
threshold and distance function, the detector returns the empty list: the
per-position loop runs zero times. -/
theorem C10_empty_series (w : ℕ) (t : ℚ) (nn : ℕ) (dist : ℚ → ℚ → ℚ) :
    get_segment_density_outliers_indices ([] : List ℚ) w t nn dist = [] := rfl
